import Mathlib

set_option maxHeartbeats 1000000

namespace Plankton

/-! # Value Normalizer (`clean_for_json`, src/backend.py lines 27-52)

A Python value tree is modelled by the mutual inductive family `Value` /
`ValueList` / `EntryList`.  Finite floats carry their rational value; the
three non-finite float values are distinguished constructors of `PyFloat`.
`numpy` scalars and arrays are separate constructors, and every value of an
unrecognized type is represented by `Value.other` carrying its display
string (the result of Python `str`). -/

/-- Model of a Python/numpy floating value: finite floats carry their exact
rational value, and NaN, +inf and -inf are distinguished. -/
inductive PyFloat where
  | finite (q : ℚ)
  | nan
  | inf
  | ninf
deriving DecidableEq, Repr

mutual
/-- A Python value tree as seen by `clean_for_json`: dicts (whose keys are
arbitrary values), lists, floats, ints, strings, booleans, `None`, numpy
integers, numpy floats, numpy arrays, and a catch-all `other` carrying the
display string of any value of an unrecognized type. -/
inductive Value where
  | dict (es : EntryList)
  | list (vs : ValueList)
  | float (x : PyFloat)
  | int (n : Int)
  | str (s : String)
  | bool (b : Bool)
  | none
  | npInt (n : Int)
  | npFloat (x : PyFloat)
  | ndarray (vs : ValueList)
  | other (display : String)

/-- A list of Python values (elements of a list or array). -/
inductive ValueList where
  | nil
  | cons (v : Value) (tail : ValueList)

/-- The entries of a Python dict, in insertion order: key, value, rest. -/
inductive EntryList where
  | nil
  | cons (key : Value) (val : Value) (tail : EntryList)
end

mutual
/-- Model of `numpy.ndarray.tolist` applied to one element: numpy scalars
become the corresponding Python scalars and nested arrays become lists;
everything else (elements of object arrays) is unchanged. -/
def pyScalar : Value → Value
  | .npInt n => .int n
  | .npFloat x => .float x
  | .ndarray vs => .list (pyScalarList vs)
  | v => v

/-- `pyScalar` mapped over the elements of an array. -/
def pyScalarList : ValueList → ValueList
  | .nil => .nil
  | .cons v t => .cons (pyScalar v) (pyScalarList t)
end

mutual
/-- Shallow embedding of `clean_for_json` (src/backend.py lines 27-52): dicts
keep their keys and clean their values; lists clean their elements; NaN,
+inf and -inf (plain or numpy) become the strings "NaN", "Infinity" and
"-Infinity"; finite floats, ints, strings, booleans and `None` are returned
unchanged; numpy integers are widened to `int`; numpy arrays are converted
to lists (`obj.tolist()`, see `clean_for_json_ndarray_models_tolist`) and
cleaned recursively; any other value is replaced by its display string. -/
def clean_for_json : Value → Value
  | .dict es => .dict (cleanEntries es)
  | .list vs => .list (cleanValues vs)
  | .float .nan => .str "NaN"
  | .float .inf => .str "Infinity"
  | .float .ninf => .str "-Infinity"
  | .float (.finite q) => .float (.finite q)
  | .int n => .int n
  | .str s => .str s
  | .bool b => .bool b
  | .none => .none
  | .npInt n => .int n
  | .npFloat .nan => .str "NaN"
  | .npFloat .inf => .str "Infinity"
  | .npFloat .ninf => .str "-Infinity"
  | .npFloat (.finite q) => .float (.finite q)
  | .ndarray vs => .list (cleanValues vs)
  | .other d => .str d

/-- `clean_for_json` mapped over list elements. -/
def cleanValues : ValueList → ValueList
  | .nil => .nil
  | .cons v t => .cons (clean_for_json v) (cleanValues t)

/-- `clean_for_json` mapped over dict entries: the key is kept as is and only
the value is cleaned, exactly as in the source comprehension. -/
def cleanEntries : EntryList → EntryList
  | .nil => .nil
  | .cons k v t => .cons k (clean_for_json v) (cleanEntries t)
end


/-! # Tabular data model

A pandas `DataFrame` over object columns is modelled as an ordered list of
named columns, each an ordered list of cells.  A cell is missing when it is
`NaN` or `None` (pandas `isna`).  The runtime type of a cell is modelled by
its Python type name (`type(v).__name__`). -/

/-- A single cell of the dataset.  Finite floats carry their rational value;
`nan`, `inf` and `ninf` are the non-finite floats (of which only `nan` is a
missing marker, like pandas `NaN`). -/
inductive Cell where
  | int (n : Int)
  | float (q : ℚ)
  | nan
  | inf
  | ninf
  | str (s : String)
  | bool (b : Bool)
  | none
deriving DecidableEq, Repr

/-- pandas `isna`: `NaN` and `None` are missing, everything else is not. -/
def isMissing : Cell → Bool
  | .nan => true
  | .none => true
  | _ => false

/-- The Python runtime type name of a cell (`type(v).__name__`). -/
def typeTag : Cell → String
  | .int _ => "int"
  | .float _ => "float"
  | .nan => "float"
  | .inf => "float"
  | .ninf => "float"
  | .str _ => "str"
  | .bool _ => "bool"
  | .none => "NoneType"

/-- Python `str` of a cell, as produced by `astype(str)`: `str(nan) = "nan"`,
`str(inf) = "inf"`, `str(-inf) = "-inf"`, `str(None) = "None"`, booleans
render capitalized.  The decimal rendering of finite floats is modelled on
the rational value (Python repr digit selection is outside the rational
model); no claim depends on a specific finite-float string. -/
def cellToStr : Cell → String
  | .int n => toString n
  | .float q => if q.den = 1 then toString q.num ++ ".0" else toString q
  | .nan => "nan"
  | .inf => "inf"
  | .ninf => "-inf"
  | .str s => s
  | .bool b => if b then "True" else "False"
  | .none => "None"

/-- A dataset: an ordered list of named columns of cells. -/
abbrev DataFrame := List (String × List Cell)

/-- `len(df)`: the number of rows, i.e. the common length of the columns
(taken from the first column). -/
def nrows (df : DataFrame) : ℕ :=
  match df with
  | [] => 0
  | c :: _ => c.2.length

/-- A dataset is well formed when every column has exactly `nrows df` cells. -/
def Wellformed (df : DataFrame) : Prop :=
  ∀ c ∈ df, c.2.length = nrows df

/-- A row as handed to `df.apply(..., axis=1)`: the column names paired with
that row's cells, in column order (a pandas `Series` indexed by the column
names). -/
abbrev Row := List (String × Cell)

/-- The row at position `i` (out-of-range positions give an empty row; they
never arise on well-formed input). -/
def rowAt (df : DataFrame) (i : ℕ) : Row :=
  df.map (fun c => (c.1, (c.2.get? i).getD Cell.none))

/-- All rows of the dataset, in order. -/
def rowsOf (df : DataFrame) : List Row :=
  (List.range (nrows df)).map (rowAt df)

/-! # Shared list helpers (mask positions, masked selection) -/

/-- The positions of the `true` entries of a boolean mask, ascending, with
positions counted from `start` (models `mask.to_numpy().nonzero()[0]` when
`start = 0`). -/
def truePositions (mask : List Bool) (start : ℕ) : List ℕ :=
  match mask with
  | [] => []
  | b :: rest =>
    if b then start :: truePositions rest (start + 1)
    else truePositions rest (start + 1)

/-- Selection of the entries of a list marked `true` by a mask (models
`df.loc[mask]` row selection). -/
def selectMask : List α → List Bool → List α
  | [], _ => []
  | _, [] => []
  | a :: as, b :: bs => if b then a :: selectMask as bs else selectMask as bs

/-! # Missingness Detector (`detect_missing_values`, src/backend.py 54-71) -/

/-- One entry of the missing-values report. -/
structure MissingEntry where
  Column : String
  Missing_Count : ℕ
  Missing_Percentage : ℚ
deriving DecidableEq, Repr

/-- The result of `detect_missing_values`: either the literal string "None"
or a non-empty list of entries. -/
inductive MissingResult where
  | noneSentinel
  | entries (l : List MissingEntry)
deriving DecidableEq, Repr

/-- Shallow embedding of `detect_missing_values`: build the per-column report
(count and `count / len(df) * 100`), keep the columns with a positive count,
and return the string "None" when that filtered report is empty. -/
def detect_missing_values (df : DataFrame) : MissingResult :=
  let report := df.map (fun c =>
    { Column := c.1
      Missing_Count := (c.2.filter isMissing).length
      Missing_Percentage :=
        ((c.2.filter isMissing).length : ℚ) / (nrows df : ℚ) * 100 : MissingEntry })
  let flagged := report.filter (fun e => decide (0 < e.Missing_Count))
  if flagged.isEmpty then .noneSentinel else .entries flagged

/-! # Duplicate Detector (`detect_duplicates`, src/backend.py 126-133) -/

/-- pandas `df.duplicated()` (default `keep="first"`): row `i` is marked if
and only if some earlier row is value-identical to it (pandas treats missing
markers as equal to each other here, as does the structural equality of the
model). -/
def duplicatedMask (df : DataFrame) : List Bool :=
  (List.range (nrows df)).map (fun i =>
    (List.range i).any (fun j => rowAt df j == rowAt df i))

/-- The result of `detect_duplicates`. -/
structure DupResult where
  count : ℕ
  indices : List ℕ
deriving DecidableEq, Repr

/-- Shallow embedding of `detect_duplicates`: the number of marked rows and
their ascending positions (the source guards the index list with
`if duplicate_count > 0 else []`). -/
def detect_duplicates (df : DataFrame) : DupResult :=
  let mask := duplicatedMask df
  let duplicate_count := mask.count true
  { count := duplicate_count
    indices := if 0 < duplicate_count then truePositions mask 0 else [] }

/-! # Type Profiler (`detect_data_type_mismatches`, src/backend.py 73-108)

`value_counts()` of the per-cell type tags is modelled by the distinct tags
in first-encounter order (`firstOccs`, the insertion order of the pandas
hash table) sorted by descending count with a stable selection
(`sortTagsByCount`, which at each step picks the first-encountered tag of
maximal count). -/

/-- The distinct elements of a list, in order of first occurrence
(accumulator variant, so that the kernel can evaluate it). -/
def firstOccsAux (seen : List String) : List String → List String
  | [] => []
  | t :: rest =>
    if t ∈ seen then firstOccsAux seen rest
    else t :: firstOccsAux (seen ++ [t]) rest

/-- The distinct elements of a list, in order of first occurrence. -/
def firstOccs (l : List String) : List String :=
  firstOccsAux [] l

/-- The first element of maximal count: later elements replace the current
best only with a strictly greater count, so ties keep the earliest. -/
def firstMax (cnt : String → ℕ) : List String → Option String
  | [] => Option.none
  | t :: rest =>
    match firstMax cnt rest with
    | Option.none => some t
    | some u => if cnt t < cnt u then some u else some t

/-- Fuelled selection sort by descending count, stable (each step takes the
first-encountered tag of maximal count). -/
def sortTagsByCountAux (cnt : String → ℕ) : ℕ → List String → List String
  | 0, _ => []
  | fuel + 1, l =>
    match firstMax cnt l with
    | Option.none => []
    | some t => t :: sortTagsByCountAux cnt fuel (l.erase t)

/-- Tags sorted by descending count with first-encounter tie-break: the order
of `value_counts()` over the tag multiset. -/
def sortTagsByCount (cnt : String → ℕ) (l : List String) : List String :=
  sortTagsByCountAux cnt l.length l

/-- The non-missing cells of a column, as (row position, type tag) pairs in
row order: the `type_series` of the source. -/
def taggedCells (cells : List Cell) : List (ℕ × String) :=
  (cells.enum.filter (fun p => !(isMissing p.2))).map (fun p => (p.1, typeTag p.2))

/-- The number of non-missing cells of the column carrying tag `t`. -/
def tagCount (ts : List (ℕ × String)) (t : String) : ℕ :=
  (ts.map Prod.snd).count t

/-- The row positions of the non-missing cells of the column carrying tag
`t`, ascending. -/
def tagIndices (ts : List (ℕ × String)) (t : String) : List ℕ :=
  (ts.filter (fun p => p.2 == t)).map Prod.fst

/-- One column's entry in the type-mismatch report. -/
structure MismatchEntry where
  dominant_type : String
  type_counts : List (String × ℕ)
  mixed_indices : List (String × List ℕ)
deriving DecidableEq, Repr

/-- Shallow embedding of the per-column body of
`detect_data_type_mismatches`: skip the column if all cells are missing
(`non_null_mask.sum() == 0`), build the type counts, and if more than one
distinct type is present report the dominant type (`type_counts.index[0]`),
the counts in `value_counts` order, and, for each non-dominant tag in
first-encounter order, the row positions of its cells (the `defaultdict`
accumulation of the source loop). -/
def colMismatch (cells : List Cell) : Option MismatchEntry :=
  let ts := taggedCells cells
  if ts.isEmpty then Option.none
  else
    let occ := firstOccs (ts.map Prod.snd)
    if 1 < occ.length then
      let sorted := sortTagsByCount (tagCount ts) occ
      let dominant_type := sorted.headD ""
      some { dominant_type := dominant_type
             type_counts := sorted.map (fun t => (t, tagCount ts t))
             mixed_indices :=
               (occ.filter (fun t => t != dominant_type)).map
                 (fun t => (t, tagIndices ts t)) }
    else Option.none

/-- Shallow embedding of `detect_data_type_mismatches`: the per-column
entries, keyed by column name, in column order. -/
def detect_data_type_mismatches (df : DataFrame) : List (String × MismatchEntry) :=
  df.filterMap (fun c => (colMismatch c.2).map (fun e => (c.1, e)))

/-! # Pattern Validator (`detect_invalid_inputs`, src/backend.py 135-157)

A regular expression is modelled by its language: the (decidable) set of
strings it matches.  pandas `Series.str.match` uses Python `re.match`,
which anchors at the start of the string only, so a cell matches exactly
when some prefix of its string form is in the pattern's language. -/

/-- The language of a regular expression, as a decidable set of strings. -/
abbrev Pattern := String → Bool

/-- Python `re.match` semantics: true iff the pattern matches at the start of
the string, i.e. some prefix (`s.take k`) lies in the pattern's language. -/
def strMatch (pat : Pattern) (s : String) : Bool :=
  (List.range (s.length + 1)).any (fun k => pat (s.take k))

/-- Full-string match (`re.fullmatch` semantics): the whole string lies in
the pattern's language.  This is what the claim asserts the validator uses;
the source uses `strMatch` instead. -/
def fullStrMatch (pat : Pattern) (s : String) : Bool :=
  pat s

/-- The JSON-safe form of one flagged cell value: non-finite floats are
pre-stringified, everything else is kept as is. -/
def invalidVal : Cell → Cell
  | .nan => .str "nan"
  | .inf => .str "inf"
  | .ninf => .str "-inf"
  | v => v

/-- One flagged column's entry in the invalid-inputs report. -/
structure InvalidEntry where
  count : ℕ
  indices : List ℕ
  values : List Cell
deriving DecidableEq, Repr

/-- The result of `detect_invalid_inputs`: the literal string "None" or a
non-empty map of flagged columns. -/
inductive InvalidResult where
  | noneSentinel
  | entries (l : List (String × InvalidEntry))
deriving DecidableEq, Repr

/-- The per-column body of `detect_invalid_inputs` for a mapped column that
exists in the dataset: stringify every cell (`astype(str)`, so missing cells
become their string forms rather than being skipped), mark the cells whose
string form fails `re.match` against the pattern, and if any cell is marked
report the count, ascending positions and cleaned values. -/
def colInvalid (pat : Pattern) (cells : List Cell) : Option InvalidEntry :=
  let invalid_mask := cells.map (fun c => !(strMatch pat (cellToStr c)))
  if invalid_mask.any (fun b => b) then
    some { count := invalid_mask.count true
           indices := truePositions invalid_mask 0
           values := (selectMask cells invalid_mask).map invalidVal }
  else Option.none

/-- Shallow embedding of `detect_invalid_inputs`: walk the rule mapping,
silently skip rule columns absent from the dataset (the source's
`if col in df.columns` guard is the `Option.bind` over the column lookup,
which contributes nothing when the lookup fails), collect the per-column
entries, and return the string "None" when no column was flagged. -/
def detect_invalid_inputs (df : DataFrame) (rules : List (String × Pattern)) :
    InvalidResult :=
  let invalid_entries := rules.filterMap (fun r =>
    ((df.lookup r.1).bind (fun cells => colInvalid r.2 cells)).map (fun e => (r.1, e)))
  if invalid_entries.isEmpty then .noneSentinel else .entries invalid_entries

/-- Lookup of a column's entry in an invalid-inputs result. -/
def lookupInvalid (r : InvalidResult) (col : String) : Option InvalidEntry :=
  match r with
  | .noneSentinel => Option.none
  | .entries l => l.lookup col

/-! # Consistency Evaluator (`check_consistency`, src/backend.py 159-192)

A rule predicate may raise, which is modelled by `Except String Bool`:
`df.apply(rule, axis=1)` evaluates the rows in order and the first raised
exception aborts the whole rule with that message. -/

/-- A consistency rule's predicate over one row: a boolean, or the message
of a raised exception. -/
abbrev Pred := Row → Except String Bool

/-- `df.apply(rule_func, axis=1)`: evaluate the predicate on every row in
order; the first raised exception aborts the evaluation with its message. -/
def evalRule (f : Pred) : List Row → Except String (List Bool)
  | [] => .ok []
  | r :: rs =>
    match f r with
    | .error e => .error e
    | .ok b =>
      match evalRule f rs with
      | .error e => .error e
      | .ok bs => .ok (b :: bs)

/-- The JSON-safe form of one cell of a failing row: non-finite floats are
pre-stringified, everything else is kept (source lines 173-178). -/
def cleanRow (r : Row) : Row :=
  r.map (fun p => (p.1, invalidVal p.2))

/-- One rule's entry in the consistency report: per-row results, or the
error report when the predicate raised. -/
inductive RuleResult where
  | failure (count : ℕ) (indices : List ℕ) (rows : List Row)
  | error (err : String) (message : String)
deriving DecidableEq, Repr

/-- The result of `check_consistency`: the literal string "None" or a
non-empty map of rule entries. -/
inductive ConsistencyResult where
  | noneSentinel
  | entries (l : List (String × RuleResult))
deriving DecidableEq, Repr

/-- The normal (exception-free) per-rule result, from the per-row booleans:
an entry exactly when some row fails, carrying the count of failing rows,
their ascending positions, and the failing rows with non-finite floats
pre-stringified. -/
def normalEntry (bs : List Bool) (rows : List Row) : Option RuleResult :=
  let failed_mask := bs.map (fun b => !b)
  if failed_mask.any (fun b => b) then
    some (.failure (failed_mask.count true) (truePositions failed_mask 0)
      ((selectMask rows failed_mask).map cleanRow))
  else Option.none

/-- The loop body of `check_consistency` for one rule: evaluate the predicate
over all rows; a raised exception is caught and reported as
`{error, "Error checking rule: <name>"}`, otherwise the normal pass/fail
entry is produced. -/
def checkOneRule (df : DataFrame) (name : String) (f : Pred) : Option RuleResult :=
  match evalRule f (rowsOf df) with
  | .error e => some (.error e ("Error checking rule: " ++ name))
  | .ok bs => normalEntry bs (rowsOf df)

/-- Shallow embedding of `check_consistency`: evaluate every rule
independently, collect the entries, and return the string "None" when the
collected map is empty. -/
def check_consistency (df : DataFrame) (rules : List (String × Pred)) :
    ConsistencyResult :=
  let inconsistencies := rules.filterMap (fun r =>
    (checkOneRule df r.1 r.2).map (fun x => (r.1, x)))
  if inconsistencies.isEmpty then .noneSentinel else .entries inconsistencies

/-- Lookup of a rule's entry in a consistency result. -/
def lookupRule (r : ConsistencyResult) (name : String) : Option RuleResult :=
  match r with
  | .noneSentinel => Option.none
  | .entries l => l.lookup name

/-! # Default consistency rules (src/backend.py 217-222)

`pd.to_numeric(x, errors="coerce")` on a scalar is modelled by
`pdToNumeric`: numbers and booleans convert exactly, strings are parsed as
decimal literals, and anything unparseable coerces to NaN.  The chained
comparisons `0 <= v <= 120` and `v >= 0` are false on NaN. -/

/-- Split a character list at the first dot, if any. -/
def splitDot : List Char → List Char × Option (List Char)
  | [] => ([], Option.none)
  | c :: rest =>
    if c = '.' then ([], some rest)
    else
      let p := splitDot rest
      (c :: p.1, p.2)

/-- The natural number denoted by a digit list. -/
def digitsToNat (l : List Char) : ℕ :=
  l.foldl (fun a c => a * 10 + (c.toNat - 48)) 0

/-- Parse a decimal literal (optional sign, digits, optional fractional
part) to its exact rational value.  This models the numeric strings
`pd.to_numeric` accepts; exotic forms (exponents, named specials) are
outside the model, and no claim depends on them. -/
def parseNumQ (s : String) : Option ℚ :=
  let p := match s.data with
    | '-' :: rest => (true, rest)
    | '+' :: rest => (false, rest)
    | cs => (false, cs)
  let ip := (splitDot p.2).1
  let sgn : ℚ := if p.1 then -1 else 1
  match (splitDot p.2).2 with
  | Option.none =>
    if ip ≠ [] ∧ ip.all Char.isDigit then some (sgn * digitsToNat ip) else Option.none
  | some fr =>
    if (ip ≠ [] ∨ fr ≠ []) ∧ ip.all Char.isDigit ∧ fr.all Char.isDigit then
      some (sgn * ((digitsToNat ip : ℚ) + (digitsToNat fr : ℚ) / (10 : ℚ) ^ fr.length))
    else Option.none

/-- `pd.to_numeric(x, errors="coerce")` on one cell: exact on numbers and
booleans, decimal parsing on strings, NaN on anything unparseable
(including missing markers). -/
def pdToNumeric : Cell → PyFloat
  | .int n => .finite n
  | .float q => .finite q
  | .nan => .nan
  | .inf => .inf
  | .ninf => .ninf
  | .bool b => .finite (if b then 1 else 0)
  | .str s =>
    match parseNumQ s with
    | some q => .finite q
    | Option.none => .nan
  | .none => .nan

/-- The chained comparison `lo <= v <= hi` on a coerced value: NaN fails both
bounds, +inf fails the upper bound, -inf fails the lower bound. -/
def pdBetween (lo : ℚ) (v : PyFloat) (hi : ℚ) : Bool :=
  match v with
  | .finite q => decide (lo ≤ q) && decide (q ≤ hi)
  | .nan => false
  | .inf => false
  | .ninf => false

/-- The comparison `v >= c` on a coerced value: NaN compares false. -/
def pdGE (v : PyFloat) (c : ℚ) : Bool :=
  match v with
  | .finite q => decide (c ≤ q)
  | .nan => false
  | .inf => true
  | .ninf => false

/-- Default rule "Valid Age": true when the row has no `Age` column,
otherwise `0 <= to_numeric(Age) <= 120`; never raises. -/
def validAgeRule : Pred := fun row =>
  .ok (match row.lookup "Age" with
    | some v => pdBetween 0 (pdToNumeric v) 120
    | Option.none => true)

/-- Default rule "Salary Non-negative": true when the row has no `Salary`
column, otherwise `to_numeric(Salary) >= 0`; never raises. -/
def salaryRule : Pred := fun row =>
  .ok (match row.lookup "Salary" with
    | some v => pdGE (pdToNumeric v) 0
    | Option.none => true)

/-- Default rule "String in set": true when the row has no `string` column,
otherwise membership of the cell in the fixed five-string allow-list; never
raises. -/
def stringInSetRule : Pred := fun row =>
  .ok (match row.lookup "string" with
    | some v => decide (v ∈ [Cell.str "apple", Cell.str "banana", Cell.str "cherry",
        Cell.str "date", Cell.str "elderberry"])
    | Option.none => true)

/-- The default consistency rule set of `run_data_quality_checks`
(src/backend.py 218-222). -/
def default_consistency_rules : List (String × Pred) :=
  [("Valid Age", validAgeRule),
   ("Salary Non-negative", salaryRule),
   ("String in set", stringInSetRule)]

/-! # Checkers and a fuelled evaluator for the normalizer claims -/

mutual
/-- True when the tree holds no non-finite float at any value position: the
root, list and array elements, and dict values.  Dict keys are not
inspected, because `clean_for_json` does not rewrite them. -/
def noBadFloat : Value → Bool
  | .dict es => noBadFloatEntries es
  | .list vs => noBadFloatValues vs
  | .float (.finite _) => true
  | .float _ => false
  | .npFloat (.finite _) => true
  | .npFloat _ => false
  | .ndarray vs => noBadFloatValues vs
  | _ => true

/-- `noBadFloat` over list elements. -/
def noBadFloatValues : ValueList → Bool
  | .nil => true
  | .cons v t => noBadFloat v && noBadFloatValues t

/-- `noBadFloat` over dict entries, inspecting values only. -/
def noBadFloatEntries : EntryList → Bool
  | .nil => true
  | .cons _ v t => noBadFloat v && noBadFloatEntries t
end

mutual
/-- True when a float NaN (plain or numpy) occurs anywhere in the tree,
dict keys included. -/
def containsNaN : Value → Bool
  | .dict es => containsNaNEntries es
  | .list vs => containsNaNValues vs
  | .float .nan => true
  | .npFloat .nan => true
  | .ndarray vs => containsNaNValues vs
  | _ => false

/-- `containsNaN` over list elements. -/
def containsNaNValues : ValueList → Bool
  | .nil => false
  | .cons v t => containsNaN v || containsNaNValues t

/-- `containsNaN` over dict entries, keys included. -/
def containsNaNEntries : EntryList → Bool
  | .nil => false
  | .cons k v t => containsNaN k || containsNaN v || containsNaNEntries t
end

mutual
/-- The nesting depth of a value: the number of nested containers. -/
def depth : Value → ℕ
  | .dict es => depthEntries es + 1
  | .list vs => depthValues vs + 1
  | .ndarray vs => depthValues vs + 1
  | _ => 0

/-- The largest depth of any element of a list. -/
def depthValues : ValueList → ℕ
  | .nil => 0
  | .cons v t => max (depth v) (depthValues t)

/-- The largest depth of any entry value of a dict. -/
def depthEntries : EntryList → ℕ
  | .nil => 0
  | .cons _ v t => max (depth v) (depthEntries t)
end

mutual
/-- A resource-bounded evaluator for `clean_for_json`: the same recursion
with an explicit bound on the nesting of recursive calls, returning `none`
when the bound is exhausted.  That evaluation always succeeds for
sufficient fuel is the formal content of "the normalizer never fails". -/
def cleanFuel : ℕ → Value → Option Value
  | 0, _ => Option.none
  | n + 1, .dict es => (cleanFuelEntries n es).map Value.dict
  | n + 1, .list vs => (cleanFuelValues n vs).map Value.list
  | _ + 1, .float .nan => some (.str "NaN")
  | _ + 1, .float .inf => some (.str "Infinity")
  | _ + 1, .float .ninf => some (.str "-Infinity")
  | _ + 1, .float (.finite q) => some (.float (.finite q))
  | _ + 1, .int n => some (.int n)
  | _ + 1, .str s => some (.str s)
  | _ + 1, .bool b => some (.bool b)
  | _ + 1, .none => some .none
  | _ + 1, .npInt n => some (.int n)
  | _ + 1, .npFloat .nan => some (.str "NaN")
  | _ + 1, .npFloat .inf => some (.str "Infinity")
  | _ + 1, .npFloat .ninf => some (.str "-Infinity")
  | _ + 1, .npFloat (.finite q) => some (.float (.finite q))
  | n + 1, .ndarray vs => (cleanFuelValues n vs).map Value.list
  | _ + 1, .other d => some (.str d)

/-- Bounded cleaning of list elements. -/
def cleanFuelValues : ℕ → ValueList → Option ValueList
  | _, .nil => some .nil
  | n, .cons v t =>
    match cleanFuel n v, cleanFuelValues n t with
    | some v', some t' => some (.cons v' t')
    | _, _ => Option.none

/-- Bounded cleaning of dict entries. -/
def cleanFuelEntries : ℕ → EntryList → Option EntryList
  | _, .nil => some .nil
  | n, .cons k v t =>
    match cleanFuel n v, cleanFuelEntries n t with
    | some v', some t' => some (.cons k v' t')
    | _, _ => Option.none
end

/-! # Concrete datasets used by the scenario claims and the witnesses -/

/-- The dataset of the "Valid Age" scenario: one column `Age = [30, 150, "x"]`. -/
def ageScenarioDf : DataFrame := [("Age", [.int 30, .int 150, .str "x"])]

/-- The dataset of the duplicate scenario: rows 0 and 3 are identical
(`Age 25, Salary 50000`), rows 1 and 2 are distinct from every other row. -/
def dupScenarioDf : DataFrame :=
  [("Age", [.int 25, .int 1, .int 2, .int 25]),
   ("Salary", [.int 50000, .int 10, .int 20, .int 50000])]

/-- A dataset with one missing cell, for the missingness witness. -/
def missingWitnessDf : DataFrame := [("a", [.nan, .int 1])]

/-- A dataset whose `Salary` column mixes int, str and a missing cell, for
the type-profiler witness. -/
def typeWitnessDf : DataFrame := [("Salary", [.int 100, .str "bad", .nan])]

/-- The cells of `typeWitnessDf`'s only column. -/
def typeWitnessCells : List Cell := [.int 100, .str "bad", .nan]

/-- A two-cell string column, for the pattern-validator witnesses. -/
def patternWitnessDf : DataFrame := [("c", [.str "ab", .str "zz"])]

/-- The pattern whose language is the single string "a". -/
def letterAPattern : Pattern := fun s => s == "a"

/-- The pattern rules of the pattern-validator witnesses. -/
def patternWitnessRules : List (String × Pattern) := [("c", letterAPattern)]

/-- A one-row dataset for the consistency witnesses. -/
def consistencyWitnessDf : DataFrame := [("A", [.int 1])]

/-- A predicate that raises on every row. -/
def raisingPred : Pred := fun _ => .error "boom"

/-- A predicate that passes on every row. -/
def passingPred : Pred := fun _ => .ok true

/-- The rule set of the consistency witnesses: a raising rule followed by a
passing rule. -/
def consistencyWitnessRules : List (String × Pred) :=
  [("bad", raisingPred), ("good", passingPred)]

/-! # Lemmas equating the array equation with the tolist route, and
idempotence of the normalizer -/

mutual
/-- In the source, `clean_for_json` sends an array through `obj.tolist()`
before recursing.  `tolist` only replaces numpy scalars by Python scalars
and nested arrays by lists, and cleaning treats those pairs identically, so
the conversion is absorbed by the recursive cleaning: this lemma proves the
embedding's array equation equal to the source's `tolist` route. -/
theorem clean_pyScalar : ∀ v : Value, clean_for_json (pyScalar v) = clean_for_json v
  | .dict _ => rfl
  | .list _ => rfl
  | .float x => by cases x <;> rfl
  | .int _ => rfl
  | .str _ => rfl
  | .bool _ => rfl
  | .none => rfl
  | .npInt _ => rfl
  | .npFloat x => by cases x <;> rfl
  | .ndarray vs => by
      simp only [pyScalar, clean_for_json, cleanValues_pyScalarList vs]
  | .other _ => rfl

/-- List version of `clean_pyScalar`. -/
theorem cleanValues_pyScalarList : ∀ vs : ValueList,
    cleanValues (pyScalarList vs) = cleanValues vs
  | .nil => rfl
  | .cons v t => by
      simp only [pyScalarList, cleanValues, clean_pyScalar v, cleanValues_pyScalarList t]
end

/-- The embedding's equation for arrays agrees with the source, which cleans
`obj.tolist()`. -/
theorem clean_for_json_ndarray_models_tolist (vs : ValueList) :
    clean_for_json (.ndarray vs) = clean_for_json (.list (pyScalarList vs)) := by
  simp only [clean_for_json, cleanValues_pyScalarList]

mutual
/-- Idempotence of the normalizer on a single value. -/
theorem clean_for_json_idem : ∀ v : Value,
    clean_for_json (clean_for_json v) = clean_for_json v
  | .dict es => by simp only [clean_for_json, cleanEntries_idem es]
  | .list vs => by simp only [clean_for_json, cleanValues_idem vs]
  | .float x => by cases x <;> rfl
  | .int _ => rfl
  | .str _ => rfl
  | .bool _ => rfl
  | .none => rfl
  | .npInt _ => rfl
  | .npFloat x => by cases x <;> rfl
  | .ndarray vs => by simp only [clean_for_json, cleanValues_idem vs]
  | .other _ => rfl

/-- Idempotence of the normalizer on list elements. -/
theorem cleanValues_idem : ∀ vs : ValueList, cleanValues (cleanValues vs) = cleanValues vs
  | .nil => rfl
  | .cons v t => by
      simp only [cleanValues, clean_for_json_idem v, cleanValues_idem t]

/-- Idempotence of the normalizer on dict entries. -/
theorem cleanEntries_idem : ∀ es : EntryList, cleanEntries (cleanEntries es) = cleanEntries es
  | .nil => rfl
  | .cons k v t => by
      simp only [cleanEntries, clean_for_json_idem v, cleanEntries_idem t]
end

/-! # Helper lemmas about the shared list functions -/

theorem le_of_mem_truePositions : ∀ (m : List Bool) (s i : ℕ),
    i ∈ truePositions m s → s ≤ i := by
  intro m
  induction m with
  | nil => intro s i h; simp [truePositions] at h
  | cons b rest ih =>
    intro s i h
    cases b with
    | true =>
      rw [truePositions, if_pos rfl] at h
      rcases List.mem_cons.mp h with rfl | h
      · exact Nat.le_refl i
      · exact Nat.le_of_succ_le (ih (s + 1) i h)
    | false =>
      rw [truePositions] at h
      simp only [Bool.false_eq_true, if_false] at h
      exact Nat.le_of_succ_le (ih (s + 1) i h)

theorem pairwise_truePositions : ∀ (m : List Bool) (s : ℕ),
    List.Pairwise (· < ·) (truePositions m s) := by
  intro m
  induction m with
  | nil => intro s; simp [truePositions]
  | cons b rest ih =>
    intro s
    cases b with
    | true =>
      rw [truePositions, if_pos rfl]
      exact List.Pairwise.cons
        (fun i hi => Nat.lt_of_succ_le (le_of_mem_truePositions rest (s + 1) i hi))
        (ih (s + 1))
    | false =>
      rw [truePositions]
      simp only [Bool.false_eq_true, if_false]
      exact ih (s + 1)

theorem length_truePositions : ∀ (m : List Bool) (s : ℕ),
    (truePositions m s).length = m.count true := by
  intro m
  induction m with
  | nil => intro s; simp [truePositions]
  | cons b rest ih =>
    intro s
    cases b with
    | true =>
      rw [truePositions, if_pos rfl]
      simp [List.count_cons, ih (s + 1)]
    | false =>
      rw [truePositions]
      simp only [Bool.false_eq_true, if_false]
      simp [List.count_cons, ih (s + 1)]

theorem mem_truePositions : ∀ (m : List Bool) (s i : ℕ),
    i ∈ truePositions m s ↔ s ≤ i ∧ m.get? (i - s) = some true := by
  intro m
  induction m with
  | nil => intro s i; simp [truePositions]
  | cons b rest ih =>
    intro s i
    cases b with
    | true =>
      rw [truePositions, if_pos rfl]
      constructor
      · intro h
        rcases List.mem_cons.mp h with rfl | h
        · simp
        · rcases (ih (s + 1) i).mp h with ⟨hle, hget⟩
          refine ⟨by omega, ?_⟩
          have : i - s = (i - (s + 1)) + 1 := by omega
          rw [this]
          simpa using hget
      · rintro ⟨hle, hget⟩
        rcases Nat.eq_or_lt_of_le hle with rfl | hlt
        · exact List.mem_cons_self _ _
        · refine List.mem_cons.mpr (Or.inr ((ih (s + 1) i).mpr ⟨by omega, ?_⟩))
          have : i - s = (i - (s + 1)) + 1 := by omega
          rw [this] at hget
          simpa using hget
    | false =>
      rw [truePositions]
      simp only [Bool.false_eq_true, if_false]
      rw [ih (s + 1) i]
      constructor
      · rintro ⟨hle, hget⟩
        refine ⟨by omega, ?_⟩
        have : i - s = (i - (s + 1)) + 1 := by omega
        rw [this]
        simpa using hget
      · rintro ⟨hle, hget⟩
        have hne : i ≠ s := by
          rintro rfl
          simp at hget
        refine ⟨by omega, ?_⟩
        have : i - s = (i - (s + 1)) + 1 := by omega
        rw [this] at hget
        simpa using hget

theorem mem_truePositions_zero (m : List Bool) (i : ℕ) :
    i ∈ truePositions m 0 ↔ m.get? i = some true := by
  rw [mem_truePositions]
  simp

theorem length_selectMask : ∀ (l : List α) (m : List Bool),
    l.length = m.length → (selectMask l m).length = m.count true := by
  intro l
  induction l with
  | nil =>
    intro m h
    cases m with
    | nil => simp [selectMask]
    | cons b bs => simp at h
  | cons a as ih =>
    intro m h
    cases m with
    | nil => simp at h
    | cons b bs =>
      cases b with
      | true =>
        rw [selectMask, if_pos rfl]
        simp only [List.length_cons] at h ⊢
        rw [ih bs (by omega)]
        simp [List.count_cons]
      | false =>
        rw [selectMask]
        simp only [Bool.false_eq_true, if_false]
        simp only [List.length_cons] at h
        rw [ih bs (by omega)]
        simp [List.count_cons]

theorem evalRule_ok_length : ∀ (f : Pred) (rs : List Row) (bs : List Bool),
    evalRule f rs = .ok bs → bs.length = rs.length := by
  intro f rs
  induction rs with
  | nil =>
    intro bs h
    rw [evalRule] at h
    cases h
    rfl
  | cons r rest ih =>
    intro bs h
    rw [evalRule] at h
    cases hfr : f r with
    | error e => rw [hfr] at h; cases h
    | ok b =>
      rw [hfr] at h
      cases hrest : evalRule f rest with
      | error e => rw [hrest] at h; cases h
      | ok bs' =>
        rw [hrest] at h
        cases h
        simp [ih bs' hrest]

/-! # Helper lemmas about association-list lookup -/

theorem lookup_eq_none_of_not_mem_keys {β : Type} :
    ∀ (l : List (String × β)) (k : String),
    k ∉ l.map Prod.fst → l.lookup k = Option.none := by
  intro l
  induction l with
  | nil => intro k _; rfl
  | cons p rest ih =>
    intro k hk
    simp only [List.map_cons, List.mem_cons] at hk
    push_neg at hk
    rw [List.lookup]
    have : (k == p.1) = false := by
      simpa [beq_eq_false_iff_ne] using hk.1
    rw [this]
    exact ih k hk.2

theorem lookup_eq_of_mem {β : Type} :
    ∀ (l : List (String × β)) (k : String) (v : β),
    (k, v) ∈ l → (l.map Prod.fst).Nodup → l.lookup k = some v := by
  intro l
  induction l with
  | nil => intro k v h _; simp at h
  | cons p rest ih =>
    intro k v h hnd
    simp only [List.map_cons, List.nodup_cons] at hnd
    rcases List.mem_cons.mp h with rfl | hmem
    · rw [List.lookup]
      simp
    · have hk : p.1 ≠ k := by
        rintro rfl
        exact hnd.1 (List.mem_map.mpr ⟨(p.1, v), hmem, rfl⟩)
      rw [List.lookup]
      have : (k == p.1) = false := by
        simp [beq_eq_false_iff_ne]
        exact fun h => hk h.symm
      rw [this]
      exact ih k v hmem hnd.2

theorem mem_of_lookup_eq_some {β : Type} :
    ∀ (l : List (String × β)) (k : String) (v : β),
    l.lookup k = some v → (k, v) ∈ l := by
  intro l
  induction l with
  | nil => intro k v h; cases h
  | cons p rest ih =>
    intro k v h
    rw [List.lookup] at h
    cases hbe : k == p.1 with
    | true =>
      rw [hbe] at h
      cases h
      have hkp : k = p.1 := by simpa using hbe
      rw [hkp, Prod.mk.eta]
      exact List.mem_cons_self _ _
    | false =>
      rw [hbe] at h
      exact List.mem_cons.mpr (Or.inr (ih k v h))

theorem lookup_filterMap_keyed {β γ : Type} :
    ∀ (l : List (String × β)) (g : String → β → Option γ) (k : String),
    (l.map Prod.fst).Nodup →
    (l.filterMap (fun p => (g p.1 p.2).map (fun x => (p.1, x)))).lookup k =
      (l.lookup k).bind (fun b => g k b) := by
  intro l
  induction l with
  | nil => intro g k _; rfl
  | cons p rest ih =>
    intro g k hnd
    simp only [List.map_cons, List.nodup_cons] at hnd
    by_cases hk : p.1 = k
    · subst hk
      cases hg : g p.1 p.2 with
      | none =>
        rw [List.filterMap_cons, hg]
        simp only [Option.map_none']
        rw [List.lookup]
        simp only [beq_self_eq_true]
        have hnotin : p.1 ∉ (rest.filterMap
            (fun q => (g q.1 q.2).map (fun x => (q.1, x)))).map Prod.fst := by
          intro hmem
          rcases List.mem_map.mp hmem with ⟨q, hq, hq1⟩
          rcases List.mem_filterMap.mp hq with ⟨q', hq', hg'⟩
          cases hgq : g q'.1 q'.2 with
          | none => rw [hgq] at hg'; cases hg'
          | some x =>
            rw [hgq] at hg'
            cases hg'
            exact hnd.1 (List.mem_map.mpr ⟨q', hq', by rw [← hq1]⟩)
        rw [lookup_eq_none_of_not_mem_keys _ _ hnotin]
        simp [hg]
      | some x =>
        rw [List.filterMap_cons, hg]
        simp only [Option.map_some']
        rw [List.lookup]
        simp only [beq_self_eq_true]
        rw [List.lookup]
        simp only [beq_self_eq_true]
        simp [hg]
    · have hbe : (k == p.1) = false := by
        simp [beq_eq_false_iff_ne]
        exact fun h => hk h.symm
      cases hg : g p.1 p.2 with
      | none =>
        rw [List.filterMap_cons, hg]
        simp only [Option.map_none']
        rw [ih g k hnd.2, List.lookup, hbe]
      | some x =>
        rw [List.filterMap_cons, hg]
        simp only [Option.map_some']
        rw [List.lookup, hbe, ih g k hnd.2, List.lookup, hbe]

theorem lookup_map_self {α : Type} :
    ∀ (l : List String) (f : String → α) (k : String), l.Nodup →
    (l.map (fun t => (t, f t))).lookup k =
      if k ∈ l then some (f k) else Option.none := by
  intro l
  induction l with
  | nil => intro f k _; simp
  | cons a rest ih =>
    intro f k hnd
    rw [List.nodup_cons] at hnd
    rw [List.map_cons, List.lookup]
    by_cases hk : a = k
    · subst hk
      simp
    · have hbe : (k == a) = false := by
        simp [beq_eq_false_iff_ne]
        exact fun h => hk h.symm
      rw [hbe, ih f k hnd.2]
      have hka : ¬ k = a := fun h => hk h.symm
      simp [List.mem_cons, hka]

/-! # Helper lemmas about the type profiler's counting order -/

theorem firstMax_isSome (cnt : String → ℕ) :
    ∀ (l : List String), l ≠ [] → ∃ t, firstMax cnt l = some t := by
  intro l hl
  cases l with
  | nil => exact absurd rfl hl
  | cons a rest =>
    cases hr : firstMax cnt rest with
    | none => exact ⟨a, by simp only [firstMax, hr]⟩
    | some u =>
      by_cases h : cnt a < cnt u
      · exact ⟨u, by simp only [firstMax, hr, if_pos h]⟩
      · exact ⟨a, by simp only [firstMax, hr, if_neg h]⟩

theorem firstMax_mem (cnt : String → ℕ) :
    ∀ (l : List String) (t : String), firstMax cnt l = some t → t ∈ l := by
  intro l
  induction l with
  | nil => intro t h; cases h
  | cons a rest ih =>
    intro t h
    cases hr : firstMax cnt rest with
    | none =>
      simp only [firstMax, hr] at h
      cases h
      exact List.mem_cons_self _ _
    | some u =>
      simp only [firstMax, hr] at h
      by_cases hc : cnt a < cnt u
      · rw [if_pos hc] at h
        cases h
        exact List.mem_cons.mpr (Or.inr (ih t hr))
      · rw [if_neg hc] at h
        cases h
        exact List.mem_cons_self _ _

theorem firstMax_is_max (cnt : String → ℕ) :
    ∀ (l : List String) (t : String), firstMax cnt l = some t →
    ∀ u ∈ l, cnt u ≤ cnt t := by
  intro l
  induction l with
  | nil => intro t h; cases h
  | cons a rest ih =>
    intro t h u hu
    cases hr : firstMax cnt rest with
    | none =>
      simp only [firstMax, hr] at h
      cases h
      have hrest : rest = [] := by
        by_contra hne
        obtain ⟨w, hw⟩ := firstMax_isSome cnt rest hne
        rw [hw] at hr
        cases hr
      subst hrest
      rcases List.mem_cons.mp hu with rfl | hu
      · exact Nat.le_refl _
      · cases hu
    | some w =>
      simp only [firstMax, hr] at h
      by_cases hc : cnt a < cnt w
      · rw [if_pos hc] at h
        cases h
        rcases List.mem_cons.mp hu with rfl | hu
        · exact Nat.le_of_lt hc
        · exact ih t hr u hu
      · rw [if_neg hc] at h
        cases h
        rcases List.mem_cons.mp hu with rfl | hu
        · exact Nat.le_refl _
        · exact Nat.le_trans (ih w hr u hu) (Nat.le_of_not_lt hc)

theorem firstMax_earliest (cnt : String → ℕ) :
    ∀ (l : List String), l.Nodup → ∀ t, firstMax cnt l = some t →
    ∀ pre post, l = pre ++ t :: post → ∀ u ∈ pre, cnt u < cnt t := by
  intro l
  induction l with
  | nil =>
    intro _ t h
    cases h
  | cons a rest ih =>
    intro hnd t h pre post hsplit u hu
    rw [List.nodup_cons] at hnd
    cases pre with
    | nil => cases hu
    | cons p pre' =>
      have hap : a = p := by
        have := congrArg (fun l => List.head? l) hsplit
        simpa using this
      subst hap
      have hrest : rest = pre' ++ t :: post := by
        have := congrArg List.tail hsplit
        simpa using this
      have htrest : t ∈ rest := by
        rw [hrest]
        exact List.mem_append.mpr (Or.inr (List.mem_cons_self _ _))
      have hta : t ≠ a := by
        rintro rfl
        exact hnd.1 htrest
      cases hr : firstMax cnt rest with
      | none =>
        simp only [firstMax, hr] at h
        cases h
        exact absurd rfl hta
      | some w =>
        simp only [firstMax, hr] at h
        by_cases hc : cnt a < cnt w
        · rw [if_pos hc] at h
          cases h
          rcases List.mem_cons.mp hu with rfl | hu
          · exact hc
          · exact ih hnd.2 t hr pre' post hrest u hu
        · rw [if_neg hc] at h
          cases h
          exact absurd rfl hta

theorem sortTagsByCount_head (cnt : String → ℕ) (l : List String) (hl : l ≠ []) :
    ∃ t, firstMax cnt l = some t ∧ (sortTagsByCount cnt l).headD "" = t := by
  obtain ⟨t, ht⟩ := firstMax_isSome cnt l hl
  refine ⟨t, ht, ?_⟩
  cases l with
  | nil => exact absurd rfl hl
  | cons a rest =>
    rw [sortTagsByCount]
    simp only [List.length_cons]
    rw [sortTagsByCountAux, ht]
    rfl

theorem mem_firstOccsAux :
    ∀ (l seen : List String) (t : String),
    t ∈ firstOccsAux seen l ↔ t ∈ l ∧ t ∉ seen := by
  intro l
  induction l with
  | nil => intro seen t; simp [firstOccsAux]
  | cons a rest ih =>
    intro seen t
    rw [firstOccsAux]
    by_cases ha : a ∈ seen
    · rw [if_pos ha, ih]
      constructor
      · rintro ⟨ht, hts⟩
        exact ⟨List.mem_cons.mpr (Or.inr ht), hts⟩
      · rintro ⟨ht, hts⟩
        rcases List.mem_cons.mp ht with rfl | ht
        · exact absurd ha hts
        · exact ⟨ht, hts⟩
    · rw [if_neg ha]
      constructor
      · intro h
        rcases List.mem_cons.mp h with rfl | h
        · exact ⟨List.mem_cons_self _ _, ha⟩
        · rcases (ih (seen ++ [a]) t).mp h with ⟨ht, hts⟩
          simp only [List.mem_append, List.mem_singleton] at hts
          push_neg at hts
          exact ⟨List.mem_cons.mpr (Or.inr ht), hts.1⟩
      · rintro ⟨ht, hts⟩
        rcases List.mem_cons.mp ht with rfl | ht
        · exact List.mem_cons_self _ _
        · by_cases hta : t = a
          · subst hta
            exact List.mem_cons_self _ _
          · refine List.mem_cons.mpr (Or.inr ((ih (seen ++ [a]) t).mpr ⟨ht, ?_⟩))
            simp only [List.mem_append, List.mem_singleton]
            push_neg
            exact ⟨hts, hta⟩

theorem nodup_firstOccsAux :
    ∀ (l seen : List String), (firstOccsAux seen l).Nodup := by
  intro l
  induction l with
  | nil => intro seen; simp [firstOccsAux]
  | cons a rest ih =>
    intro seen
    rw [firstOccsAux]
    by_cases ha : a ∈ seen
    · rw [if_pos ha]
      exact ih seen
    · rw [if_neg ha]
      rw [List.nodup_cons]
      refine ⟨?_, ih (seen ++ [a])⟩
      intro hmem
      rcases (mem_firstOccsAux rest (seen ++ [a]) a).mp hmem with ⟨_, hns⟩
      simp at hns

theorem nodup_firstOccs (l : List String) : (firstOccs l).Nodup :=
  nodup_firstOccsAux l []

theorem mem_firstOccs (l : List String) (t : String) : t ∈ firstOccs l ↔ t ∈ l := by
  rw [firstOccs, mem_firstOccsAux]
  simp

/-! # Helper lemmas about the normalizer checkers -/

mutual
/-- After cleaning, no non-finite float remains at any value position. -/
theorem noBadFloat_clean : ∀ v : Value, noBadFloat (clean_for_json v) = true
  | .dict es => by
      simp only [clean_for_json, noBadFloat, noBadFloatEntries_clean es]
  | .list vs => by
      simp only [clean_for_json, noBadFloat, noBadFloatValues_clean vs]
  | .float x => by cases x <;> rfl
  | .int _ => rfl
  | .str _ => rfl
  | .bool _ => rfl
  | .none => rfl
  | .npInt _ => rfl
  | .npFloat x => by cases x <;> rfl
  | .ndarray vs => by
      simp only [clean_for_json, noBadFloat, noBadFloatValues_clean vs]
  | .other _ => rfl

/-- List version of `noBadFloat_clean`. -/
theorem noBadFloatValues_clean : ∀ vs : ValueList, noBadFloatValues (cleanValues vs) = true
  | .nil => rfl
  | .cons v t => by
      simp only [cleanValues, noBadFloatValues, noBadFloat_clean v,
        noBadFloatValues_clean t, Bool.and_self]

/-- Entry version of `noBadFloat_clean`. -/
theorem noBadFloatEntries_clean : ∀ es : EntryList, noBadFloatEntries (cleanEntries es) = true
  | .nil => rfl
  | .cons k v t => by
      simp only [cleanEntries, noBadFloatEntries, noBadFloat_clean v,
        noBadFloatEntries_clean t, Bool.and_self]
end

mutual
/-- The bounded evaluator succeeds, and agrees with `clean_for_json`, on any
fuel exceeding the value's nesting depth. -/
theorem cleanFuel_complete : ∀ (v : Value) (n : ℕ),
    depth v < n → cleanFuel n v = some (clean_for_json v)
  | _, 0, h => absurd h (Nat.not_lt_zero _)
  | .dict es, n + 1, h => by
      have hd : depthEntries es < n := by
        simp only [depth] at h
        omega
      simp only [cleanFuel, cleanFuelEntries_complete es n hd, Option.map_some',
        clean_for_json]
  | .list vs, n + 1, h => by
      have hd : depthValues vs < n := by
        simp only [depth] at h
        omega
      simp only [cleanFuel, cleanFuelValues_complete vs n hd, Option.map_some',
        clean_for_json]
  | .float x, _ + 1, _ => by cases x <;> rfl
  | .int _, _ + 1, _ => rfl
  | .str _, _ + 1, _ => rfl
  | .bool _, _ + 1, _ => rfl
  | .none, _ + 1, _ => rfl
  | .npInt _, _ + 1, _ => rfl
  | .npFloat x, _ + 1, _ => by cases x <;> rfl
  | .ndarray vs, n + 1, h => by
      have hd : depthValues vs < n := by
        simp only [depth] at h
        omega
      simp only [cleanFuel, cleanFuelValues_complete vs n hd, Option.map_some',
        clean_for_json]
  | .other _, _ + 1, _ => rfl

/-- List version of `cleanFuel_complete`. -/
theorem cleanFuelValues_complete : ∀ (vs : ValueList) (n : ℕ),
    depthValues vs < n → cleanFuelValues n vs = some (cleanValues vs)
  | .nil, _, _ => rfl
  | .cons v t, n, h => by
      have hv : depth v < n := by
        simp only [depthValues] at h
        omega
      have ht : depthValues t < n := by
        simp only [depthValues] at h
        omega
      simp only [cleanFuelValues, cleanFuel_complete v n hv,
        cleanFuelValues_complete t n ht, cleanValues]

/-- Entry version of `cleanFuel_complete`. -/
theorem cleanFuelEntries_complete : ∀ (es : EntryList) (n : ℕ),
    depthEntries es < n → cleanFuelEntries n es = some (cleanEntries es)
  | .nil, _, _ => rfl
  | .cons k v t, n, h => by
      have hv : depth v < n := by
        simp only [depthEntries] at h
        omega
      have ht : depthEntries t < n := by
        simp only [depthEntries] at h
        omega
      simp only [cleanFuelEntries, cleanFuel_complete v n hv,
        cleanFuelEntries_complete t n ht, cleanEntries]
end

/-! # Helper lemma about the duplicate mask -/

theorem duplicatedMask_get (df : DataFrame) (i : ℕ) :
    (duplicatedMask df).get? i = some true ↔
      i < nrows df ∧ ∃ j, j < i ∧ rowAt df j = rowAt df i := by
  rw [duplicatedMask, List.get?_map]
  by_cases hi : i < nrows df
  · rw [List.get?_range hi]
    simp only [Option.map_some', Option.some.injEq]
    constructor
    · intro h
      refine ⟨hi, ?_⟩
      rcases List.any_eq_true.mp h with ⟨j, hj, hbeq⟩
      exact ⟨j, List.mem_range.mp hj, by simpa using hbeq⟩
    · rintro ⟨_, j, hj, heq⟩
      exact List.any_eq_true.mpr ⟨j, List.mem_range.mpr hj, by simpa using heq⟩
  · rw [List.get?_eq_none.mpr (by simpa using hi)]
    simp only [Option.map_none']
    constructor
    · intro h; cases h
    · rintro ⟨h, _⟩; exact absurd h hi

theorem count_duplicatedMask_zero (df : DataFrame)
    (h : (duplicatedMask df).count true = 0) (i : ℕ) :
    (duplicatedMask df).get? i ≠ some true := by
  intro hget
  have hmem : true ∈ duplicatedMask df := List.get?_mem hget
  rw [List.count_eq_zero] at h
  exact h hmem

/-! # Claim theorems -/

/-- C2 (amended): `clean_for_json` maps every non-finite floating value —
plain or numpy — to its exact sentinel string ("NaN", "Infinity",
"-Infinity"), at every depth of the input tree at value positions (the
root, sequence and array elements, and mapping values); non-finite floats
occurring as mapping keys are left unchanged.  The six equations give the
exact sentinels, the two `cons` equations show the substitution at element
and entry positions, and `noBadFloat` certifies that no non-finite float
survives at any value position of the output. -/
theorem C2_nonfinite_to_sentinels :
    clean_for_json (Value.float PyFloat.nan) = Value.str "NaN"
    ∧ clean_for_json (Value.float PyFloat.inf) = Value.str "Infinity"
    ∧ clean_for_json (Value.float PyFloat.ninf) = Value.str "-Infinity"
    ∧ clean_for_json (Value.npFloat PyFloat.nan) = Value.str "NaN"
    ∧ clean_for_json (Value.npFloat PyFloat.inf) = Value.str "Infinity"
    ∧ clean_for_json (Value.npFloat PyFloat.ninf) = Value.str "-Infinity"
    ∧ (∀ vs : ValueList, cleanValues (ValueList.cons (Value.float PyFloat.nan) vs) =
        ValueList.cons (Value.str "NaN") (cleanValues vs))
    ∧ (∀ (k : Value) (es : EntryList),
        cleanEntries (EntryList.cons k (Value.float PyFloat.nan) es) =
          EntryList.cons k (Value.str "NaN") (cleanEntries es))
    ∧ (∀ v : Value, noBadFloat (clean_for_json v) = true) :=
  ⟨rfl, rfl, rfl, rfl, rfl, rfl, fun _ => rfl, fun _ _ => rfl, noBadFloat_clean⟩

/-- C2 (counterexample): the claim promises the sentinel substitution at
*every* depth of the input tree, but `clean_for_json` leaves dict keys
untouched (`{k: clean_for_json(v) for k, v in obj.items()}`), so a NaN used
as a mapping key survives cleaning as a raw NaN float instead of becoming
the string "NaN". -/
theorem C2_counterexample_nan_dict_key :
    clean_for_json (Value.dict (EntryList.cons (Value.float PyFloat.nan) (Value.int 1)
        EntryList.nil)) =
      Value.dict (EntryList.cons (Value.float PyFloat.nan) (Value.int 1) EntryList.nil)
    ∧ containsNaN (clean_for_json (Value.dict (EntryList.cons (Value.float PyFloat.nan)
        (Value.int 1) EntryList.nil))) = true :=
  ⟨rfl, rfl⟩

/-- C3: the Value Normalizer is idempotent: cleaning an already-cleaned tree
returns it unchanged, for every input value. -/
theorem C3_clean_for_json_idempotent (v : Value) :
    clean_for_json (clean_for_json v) = clean_for_json v :=
  clean_for_json_idem v

/-- C9: the Value Normalizer is total: any value whose type is not a
recognized primitive or container is converted to its display-string form,
and the recursive evaluation always succeeds — the bounded evaluator
`cleanFuel` returns a result (agreeing with `clean_for_json`) on every
input once the fuel exceeds the input's nesting depth, so the normalizer
never fails regardless of input type. -/
theorem C9_clean_for_json_total :
    (∀ d : String, clean_for_json (Value.other d) = Value.str d)
    ∧ (∀ (v : Value) (n : ℕ), depth v < n → cleanFuel n v = some (clean_for_json v)) :=
  ⟨fun _ => rfl, cleanFuel_complete⟩

/-- C9 (witness): the totality theorem applied to a concrete unrecognized
value with just enough fuel. -/
theorem C9_clean_for_json_total_witness :
    depth (Value.other "object at 0x1") < 1
    ∧ cleanFuel 1 (Value.other "object at 0x1") =
        some (clean_for_json (Value.other "object at 0x1")) :=
  ⟨by decide, C9_clean_for_json_total.2 (Value.other "object at 0x1") 1 (by decide)⟩

/-- C5: `detect_duplicates` flags a row exactly when some earlier row is
value-identical to it (so the first occurrence of a value-pattern is never
flagged), the reported indices are strictly ascending, they are empty when
the count is zero, and on the scenario dataset (rows 0 and 3 identical,
rows 1 and 2 distinct) the result is count 1 with indices [3]. -/
theorem C5_detect_duplicates_spec :
    (∀ df : DataFrame,
      (∀ i, i ∈ (detect_duplicates df).indices ↔
        i < nrows df ∧ ∃ j, j < i ∧ rowAt df j = rowAt df i)
      ∧ List.Pairwise (· < ·) (detect_duplicates df).indices
      ∧ ((detect_duplicates df).count = 0 → (detect_duplicates df).indices = []))
    ∧ detect_duplicates dupScenarioDf = { count := 1, indices := [3] } := by
  constructor
  · intro df
    by_cases hc : 0 < (duplicatedMask df).count true
    · have hind : (detect_duplicates df).indices = truePositions (duplicatedMask df) 0 := by
        simp only [detect_duplicates, if_pos hc]
      refine ⟨?_, ?_, ?_⟩
      · intro i
        rw [hind, mem_truePositions_zero, duplicatedMask_get]
      · rw [hind]
        exact pairwise_truePositions _ _
      · intro h0
        simp only [detect_duplicates] at h0
        omega
    · have hc0 : (duplicatedMask df).count true = 0 := by omega
      have hind : (detect_duplicates df).indices = [] := by
        simp only [detect_duplicates, if_neg hc]
      refine ⟨?_, ?_, fun _ => hind⟩
      · intro i
        rw [hind]
        simp only [List.not_mem_nil, false_iff]
        rintro ⟨hi, j, hj, heq⟩
        exact count_duplicatedMask_zero df hc0 i
          ((duplicatedMask_get df i).mpr ⟨hi, j, hj, heq⟩)
      · rw [hind]
        exact List.Pairwise.nil
  · decide

/-- C5 (witness): the characterization applied to the scenario dataset at
row 3, whose flagging follows from the identical row 0. -/
theorem C5_detect_duplicates_spec_witness :
    3 ∈ (detect_duplicates dupScenarioDf).indices ↔
      3 < nrows dupScenarioDf ∧
        ∃ j, j < 3 ∧ rowAt dupScenarioDf j = rowAt dupScenarioDf 3 :=
  (C5_detect_duplicates_spec.1 dupScenarioDf).1 3

/-- C8: with the default consistency rules on `Age = [30, 150, "x"]`, the
"Valid Age" rule passes row 0 and fails exactly rows 1 and 2: row 1 because
150 exceeds the bound 120, and row 2 because numeric coercion of "x" yields
NaN, which fails the `0 <= value <= 120` bound check; the other default
rules see no `Salary` or `string` column and pass, so the report carries
exactly the "Valid Age" entry. -/
theorem C8_valid_age_scenario :
    evalRule validAgeRule (rowsOf ageScenarioDf) = .ok [true, false, false]
    ∧ pdToNumeric (Cell.int 150) = PyFloat.finite 150
    ∧ pdBetween 0 (PyFloat.finite 150) 120 = false
    ∧ ¬ ((150 : ℚ) ≤ 120)
    ∧ pdToNumeric (Cell.str "x") = PyFloat.nan
    ∧ pdBetween 0 PyFloat.nan 120 = false
    ∧ check_consistency ageScenarioDf default_consistency_rules =
        .entries [("Valid Age", .failure 2 [1, 2]
          [[("Age", Cell.int 150)], [("Age", Cell.str "x")]])] := by
  refine ⟨rfl, by decide, by decide, by norm_num, by decide, by decide, by decide⟩

/-- The entry reported for a rule by `check_consistency` is exactly the
entry its standalone evaluation produces, independent of every other rule
in the mapping. -/
theorem lookupRule_check_consistency (df : DataFrame) (rules : List (String × Pred))
    (hnd : (rules.map Prod.fst).Nodup) (n : String) :
    lookupRule (check_consistency df rules) n =
      (rules.lookup n).bind (fun f => checkOneRule df n f) := by
  have hlk := lookup_filterMap_keyed rules (fun k b => checkOneRule df k b) n hnd
  simp only at hlk
  rw [check_consistency]
  by_cases he : (rules.filterMap (fun r =>
      (checkOneRule df r.1 r.2).map (fun x => (r.1, x)))).isEmpty
  · rw [if_pos he, lookupRule]
    rw [List.isEmpty_iff] at he
    rw [he] at hlk
    exact hlk ▸ rfl
  · rw [if_neg he, lookupRule]
    exact hlk

/-- C1: if a rule's predicate raises on any row, `check_consistency` reports
that rule as `{error, "Error checking rule: <name>"}`, and every other rule
that evaluates without raising still receives exactly its normal pass/fail
entry, unaffected by the failure. -/
theorem C1_rule_errors_isolated (df : DataFrame) (rules : List (String × Pred))
    (hnd : (rules.map Prod.fst).Nodup) :
    (∀ (n : String) (f : Pred) (e : String), (n, f) ∈ rules →
      evalRule f (rowsOf df) = .error e →
      lookupRule (check_consistency df rules) n =
        some (.error e ("Error checking rule: " ++ n)))
    ∧ (∀ (n : String) (f : Pred) (bs : List Bool), (n, f) ∈ rules →
      evalRule f (rowsOf df) = .ok bs →
      lookupRule (check_consistency df rules) n = normalEntry bs (rowsOf df)) := by
  constructor
  · intro n f e hmem herr
    rw [lookupRule_check_consistency df rules hnd n,
      lookup_eq_of_mem rules n f hmem hnd]
    rw [Option.some_bind, checkOneRule, herr]
  · intro n f bs hmem hok
    rw [lookupRule_check_consistency df rules hnd n,
      lookup_eq_of_mem rules n f hmem hnd]
    rw [Option.some_bind, checkOneRule, hok]

/-- C1 (witness): with a raising rule "bad" and a passing rule "good" on a
one-row dataset, "bad" is reported as an error entry and "good" still gets
its normal (empty) pass/fail result. -/
theorem C1_rule_errors_isolated_witness :
    lookupRule (check_consistency consistencyWitnessDf consistencyWitnessRules) "bad" =
      some (.error "boom" ("Error checking rule: " ++ "bad"))
    ∧ lookupRule (check_consistency consistencyWitnessDf consistencyWitnessRules) "good" =
      normalEntry [true] (rowsOf consistencyWitnessDf) :=
  ⟨(C1_rule_errors_isolated consistencyWitnessDf consistencyWitnessRules
      (by decide)).1 "bad" raisingPred "boom" (List.mem_cons_self _ _) rfl,
   (C1_rule_errors_isolated consistencyWitnessDf consistencyWitnessRules
      (by decide)).2 "good" passingPred [true]
      (List.mem_cons.mpr (Or.inr (List.mem_cons_self _ _))) rfl⟩

/-- C4: `detect_missing_values` returns the literal string "None" exactly
when no column has a missing cell — never an empty sequence — and otherwise
returns a non-empty list with one entry per column having a positive
missing count, in column order, whose percentage is the unrounded rational
`100 * missing_count / row_count`. -/
theorem C4_detect_missing_values_spec (df : DataFrame) (hwf : Wellformed df) :
    (detect_missing_values df = .noneSentinel ↔
      ∀ c ∈ df, (c.2.filter isMissing).length = 0)
    ∧ (∀ L, detect_missing_values df = .entries L →
        L ≠ [] ∧
        L = (df.filter (fun c => decide (0 < (c.2.filter isMissing).length))).map
          (fun c =>
            { Column := c.1
              Missing_Count := (c.2.filter isMissing).length
              Missing_Percentage :=
                100 * ((c.2.filter isMissing).length : ℚ) / (c.2.length : ℚ) })) := by
  have hflag :
      (df.map (fun c =>
          ({ Column := c.1
             Missing_Count := (c.2.filter isMissing).length
             Missing_Percentage :=
               ((c.2.filter isMissing).length : ℚ) / (nrows df : ℚ) * 100 } :
            MissingEntry))).filter (fun e => decide (0 < e.Missing_Count)) =
        (df.filter (fun c => decide (0 < (c.2.filter isMissing).length))).map
          (fun c =>
            { Column := c.1
              Missing_Count := (c.2.filter isMissing).length
              Missing_Percentage :=
                100 * ((c.2.filter isMissing).length : ℚ) / (c.2.length : ℚ) }) := by
    rw [List.filter_map]
    have hpred : ((fun e : MissingEntry => decide (0 < e.Missing_Count)) ∘
        (fun c : String × List Cell =>
          ({ Column := c.1
             Missing_Count := (c.2.filter isMissing).length
             Missing_Percentage :=
               ((c.2.filter isMissing).length : ℚ) / (nrows df : ℚ) * 100 } :
            MissingEntry))) =
        (fun c : String × List Cell => decide (0 < (c.2.filter isMissing).length)) := by
      funext c
      rfl
    rw [hpred]
    apply List.map_congr_left
    intro c hc
    have hlen : c.2.length = nrows df := hwf c (List.mem_of_mem_filter hc)
    simp only [MissingEntry.mk.injEq, hlen, true_and]
    ring
  have hdet : detect_missing_values df =
      if ((df.filter (fun c => decide (0 < (c.2.filter isMissing).length))).map
          (fun c =>
            ({ Column := c.1
               Missing_Count := (c.2.filter isMissing).length
               Missing_Percentage :=
                 100 * ((c.2.filter isMissing).length : ℚ) / (c.2.length : ℚ) } :
              MissingEntry))).isEmpty
      then .noneSentinel
      else .entries ((df.filter (fun c => decide (0 < (c.2.filter isMissing).length))).map
          (fun c =>
            { Column := c.1
              Missing_Count := (c.2.filter isMissing).length
              Missing_Percentage :=
                100 * ((c.2.filter isMissing).length : ℚ) / (c.2.length : ℚ) })) := by
    simp only [detect_missing_values]
    rw [hflag]
  constructor
  · rw [hdet]
    by_cases he : (df.filter (fun c =>
        decide (0 < (c.2.filter isMissing).length))) = []
    · rw [he]
      simp only [List.map_nil, List.isEmpty_nil, if_pos]
      rw [List.filter_eq_nil_iff] at he
      simp only [true_iff]
      intro c hc
      have := he c hc
      simp only [decide_eq_true_eq] at this
      omega
    · have hne : ((df.filter (fun c =>
          decide (0 < (c.2.filter isMissing).length))).map (fun c =>
            ({ Column := c.1
               Missing_Count := (c.2.filter isMissing).length
               Missing_Percentage :=
                 100 * ((c.2.filter isMissing).length : ℚ) / (c.2.length : ℚ) } :
              MissingEntry))).isEmpty = false := by
        rw [List.isEmpty_eq_false]
        intro hmap
        exact he (List.map_eq_nil_iff.mp hmap)
      rw [hne]
      simp only [Bool.false_eq_true, if_false]
      refine iff_of_false (fun h => ?_) (fun hall => ?_)
      · cases h
      · apply he
        rw [List.filter_eq_nil_iff]
        intro c hc
        simp only [decide_eq_true_eq]
        have := hall c hc
        omega
  · intro L hL
    rw [hdet] at hL
    by_cases he : ((df.filter (fun c =>
        decide (0 < (c.2.filter isMissing).length))).map (fun c =>
          ({ Column := c.1
             Missing_Count := (c.2.filter isMissing).length
             Missing_Percentage :=
               100 * ((c.2.filter isMissing).length : ℚ) / (c.2.length : ℚ) } :
            MissingEntry))).isEmpty
    · rw [if_pos he] at hL
      cases hL
    · rw [if_neg he] at hL
      cases hL
      refine ⟨?_, rfl⟩
      intro hnil
      rw [hnil] at he
      exact he rfl

/-- C4 (witness): on a dataset with one missing cell the detector cannot
return the "None" sentinel, by the characterization applied to that
dataset. -/
theorem C4_detect_missing_values_spec_witness :
    detect_missing_values missingWitnessDf ≠ MissingResult.noneSentinel := by
  intro h
  have hwf : Wellformed missingWitnessDf := by
    intro c hc
    rw [missingWitnessDf, List.mem_singleton] at hc
    subst hc
    rfl
  have h2 := (C4_detect_missing_values_spec missingWitnessDf hwf).1.mp h
    ("a", [Cell.nan, Cell.int 1]) (List.mem_singleton.mpr rfl)
  exact absurd h2 (by decide)

/-- C6: `detect_data_type_mismatches` emits an entry for a column exactly
when its non-missing cells carry at least two distinct runtime type tags
(single-tag and all-missing columns are omitted); in an emitted entry the
dominant type is a tag of maximal count among the non-missing cells, every
tag first encountered before it has strictly smaller count (first-seen
tie-break), and `mixed_indices` maps each non-dominant tag that occurs to
exactly the row positions of its cells, and nothing else. -/
theorem C6_type_mismatch_spec (df : DataFrame)
    (hnd : (df.map Prod.fst).Nodup) (col : String) (cells : List Cell)
    (hcol : df.lookup col = some cells) :
    ((List.lookup col (detect_data_type_mismatches df)).isSome = true ↔
      2 ≤ (firstOccs ((taggedCells cells).map Prod.snd)).length)
    ∧ (∀ e, List.lookup col (detect_data_type_mismatches df) = some e →
        e.dominant_type ∈ firstOccs ((taggedCells cells).map Prod.snd)
        ∧ (∀ t ∈ firstOccs ((taggedCells cells).map Prod.snd),
            tagCount (taggedCells cells) t ≤ tagCount (taggedCells cells) e.dominant_type)
        ∧ (∀ pre post,
            firstOccs ((taggedCells cells).map Prod.snd) = pre ++ e.dominant_type :: post →
            ∀ t ∈ pre,
              tagCount (taggedCells cells) t < tagCount (taggedCells cells) e.dominant_type)
        ∧ (∀ t, List.lookup t e.mixed_indices =
            if t ∈ firstOccs ((taggedCells cells).map Prod.snd) ∧ t ≠ e.dominant_type
            then some (tagIndices (taggedCells cells) t)
            else Option.none)) := by
  have hlk : List.lookup col (detect_data_type_mismatches df) =
      (df.lookup col).bind (fun cs => colMismatch cs) := by
    have := lookup_filterMap_keyed df (fun _ cs => colMismatch cs) col hnd
    simpa [detect_data_type_mismatches] using this
  rw [hlk, hcol, Option.some_bind]
  by_cases hemp : (taggedCells cells).isEmpty
  · have hocc : firstOccs ((taggedCells cells).map Prod.snd) = [] := by
      rw [List.isEmpty_iff] at hemp
      rw [hemp]
      rfl
    rw [colMismatch]
    simp only [hemp, if_pos, hocc]
    exact ⟨by simp, fun e he => by cases he⟩
  · rw [colMismatch]
    simp only [hemp, Bool.false_eq_true, if_false]
    by_cases hlen : 1 < (firstOccs ((taggedCells cells).map Prod.snd)).length
    · rw [if_pos hlen]
      have hne : firstOccs ((taggedCells cells).map Prod.snd) ≠ [] := by
        intro h0
        rw [h0] at hlen
        simp at hlen
      obtain ⟨d, hd, hhead⟩ :=
        sortTagsByCount_head (tagCount (taggedCells cells))
          (firstOccs ((taggedCells cells).map Prod.snd)) hne
      constructor
      · simp only [Option.isSome_some, true_iff]
        omega
      · intro e he
        injection he with he
        subst he
        simp only
        rw [hhead]
        refine ⟨firstMax_mem _ _ d hd,
          firstMax_is_max _ _ d hd,
          firstMax_earliest _ _ (nodup_firstOccs _) d hd,
          ?_⟩
        intro t
        rw [lookup_map_self _ _ t
          ((nodup_firstOccs ((taggedCells cells).map Prod.snd)).filter _)]
        by_cases hmemd : t ∈ firstOccs ((taggedCells cells).map Prod.snd) ∧ t ≠ d
        · have hmf : t ∈ (firstOccs ((taggedCells cells).map Prod.snd)).filter
              (fun u => u != d) :=
            List.mem_filter.mpr ⟨hmemd.1, by simpa using hmemd.2⟩
          rw [if_pos hmf, if_pos hmemd]
        · have hmf : t ∉ (firstOccs ((taggedCells cells).map Prod.snd)).filter
              (fun u => u != d) := by
            intro hmem
            rcases List.mem_filter.mp hmem with ⟨h1, h2⟩
            exact hmemd ⟨h1, by simpa using h2⟩
          rw [if_neg hmf, if_neg hmemd]
    · rw [if_neg hlen]
      exact ⟨by simp; omega, fun e he => by cases he⟩

/-- C6 (witness): the characterization applied to a concrete column mixing
`int`, `str` and a missing cell: an entry is emitted because two distinct
tags occur among the non-missing cells. -/
theorem C6_type_mismatch_spec_witness :
    (List.lookup "Salary" (detect_data_type_mismatches typeWitnessDf)).isSome = true :=
  (C6_type_mismatch_spec typeWitnessDf (by decide) "Salary" typeWitnessCells
    (by decide)).1.mpr (by decide)

/-- A list's `get?` at an in-range position returns its `getD` value. -/
theorem get?_eq_some_getD {α : Type} (l : List α) (d : α) (i : ℕ) (h : i < l.length) :
    l.get? i = some (l.getD i d) := by
  rw [List.getD_eq_get?]
  cases hh : l.get? i with
  | none =>
    rw [List.get?_eq_none] at hh
    omega
  | some a => rfl

/-- The entry reported for a column by `detect_invalid_inputs` is exactly
the entry its standalone evaluation produces. -/
theorem lookupInvalid_detect (df : DataFrame) (rules : List (String × Pattern))
    (hr : (rules.map Prod.fst).Nodup) (col : String) :
    lookupInvalid (detect_invalid_inputs df rules) col =
      (rules.lookup col).bind (fun pat =>
        (df.lookup col).bind (fun cells => colInvalid pat cells)) := by
  have hlk := lookup_filterMap_keyed rules
    (fun k pat => (df.lookup k).bind (fun cells => colInvalid pat cells)) col hr
  simp only at hlk
  rw [detect_invalid_inputs]
  by_cases he : (rules.filterMap (fun r =>
      ((df.lookup r.1).bind (fun cells => colInvalid r.2 cells)).map
        (fun e => (r.1, e)))).isEmpty
  · rw [if_pos he, lookupInvalid]
    rw [List.isEmpty_iff] at he
    rw [he] at hlk
    exact hlk ▸ rfl
  · rw [if_neg he, lookupInvalid]
    exact hlk

/-- C7 (amended): `detect_invalid_inputs` stringifies every cell of each
mapped column that exists in the dataset — missing cells are stringified to
their fixed representations ("nan", "None"), not skipped, and unknown
column names are silently ignored — and flags exactly the cells whose
string form fails a match of the pattern anchored at the start of the
string (`re.match` semantics: no prefix of the string form lies in the
pattern's language). -/
theorem C7_pattern_validator_spec (df : DataFrame) (rules : List (String × Pattern))
    (hr : (rules.map Prod.fst).Nodup) :
    (∀ col pat, (col, pat) ∈ rules → df.lookup col = Option.none →
      lookupInvalid (detect_invalid_inputs df rules) col = Option.none)
    ∧ (∀ col pat cells, (col, pat) ∈ rules → df.lookup col = some cells →
        ∀ i, (∃ e, lookupInvalid (detect_invalid_inputs df rules) col = some e ∧
              i ∈ e.indices)
          ↔ (i < cells.length ∧
              strMatch pat (cellToStr (cells.getD i Cell.none)) = false))
    ∧ cellToStr Cell.nan = "nan" ∧ cellToStr Cell.none = "None" := by
  refine ⟨?_, ?_, rfl, rfl⟩
  · intro col pat hmem hnone
    rw [lookupInvalid_detect df rules hr col, lookup_eq_of_mem rules col pat hmem hr,
      Option.some_bind, hnone, Option.none_bind]
  · intro col pat cells hmem hcol i
    rw [lookupInvalid_detect df rules hr col, lookup_eq_of_mem rules col pat hmem hr,
      Option.some_bind, hcol, Option.some_bind]
    rw [colInvalid]
    by_cases hany : (cells.map (fun c => !(strMatch pat (cellToStr c)))).any
        (fun b => b)
    · rw [if_pos hany]
      constructor
      · rintro ⟨e, he, hi⟩
        injection he with he
        subst he
        simp only at hi
        rw [mem_truePositions_zero, List.get?_map] at hi
        cases hc : cells.get? i with
        | none =>
          rw [hc] at hi
          cases hi
        | some c =>
          rw [hc] at hi
          simp only [Option.map_some', Option.some.injEq, Bool.not_eq_true'] at hi
          have hilen : i < cells.length := by
            by_contra hge
            rw [List.get?_eq_none.mpr (by omega)] at hc
            cases hc
          refine ⟨hilen, ?_⟩
          have : cells.getD i Cell.none = c := by
            rw [List.getD_eq_get?, hc]
            rfl
          rw [this]
          exact hi
      · rintro ⟨hilen, hfail⟩
        refine ⟨_, rfl, ?_⟩
        simp only
        rw [mem_truePositions_zero, List.get?_map,
          get?_eq_some_getD cells Cell.none i hilen]
        simp only [Option.map_some', Option.some.injEq, Bool.not_eq_true']
        exact hfail
    · rw [if_neg hany]
      refine iff_of_false (fun h => ?_) (fun h => ?_)
      · rcases h with ⟨e, he, _⟩
        cases he
      · rcases h with ⟨hilen, hfail⟩
        apply hany
        apply List.any_eq_true.mpr
        refine ⟨true, ?_, rfl⟩
        apply List.get?_mem (n := i)
        rw [List.get?_map, get?_eq_some_getD cells Cell.none i hilen]
        simp only [Option.map_some', Option.some.injEq, Bool.not_eq_true']
        exact hfail

/-- C7 (witness): the amended characterization applied to a concrete
dataset: cell "zz" (no prefix matches the pattern "a") is flagged at
position 1. -/
theorem C7_pattern_validator_spec_witness :
    ∃ e, lookupInvalid (detect_invalid_inputs patternWitnessDf patternWitnessRules) "c" =
        some e ∧ 1 ∈ e.indices :=
  ((C7_pattern_validator_spec patternWitnessDf patternWitnessRules (by decide)).2.1
    "c" letterAPattern [.str "ab", .str "zz"] (List.mem_cons_self _ _) (by decide)
    1).mpr (by decide)

/-- C7 (counterexample): the claim asserts full-string matching, but the
code uses `re.match`, which accepts on a start-anchored prefix match: on a
column whose only cell is "ab" under the pattern whose language is exactly
the string "a", the cell's string form fails the full-string match, yet
`detect_invalid_inputs` flags nothing and returns the "None" sentinel,
because the prefix "a" of "ab" matches. -/
theorem C7_counterexample_prefix_match :
    detect_invalid_inputs [("c", [Cell.str "ab"])] [("c", letterAPattern)] =
      InvalidResult.noneSentinel
    ∧ fullStrMatch letterAPattern (cellToStr (Cell.str "ab")) = false
    ∧ strMatch letterAPattern (cellToStr (Cell.str "ab")) = true := by
  refine ⟨by decide, by decide, by decide⟩

/-- C10: in every failure entry produced by `detect_duplicates`,
`detect_invalid_inputs` and the non-error branch of `check_consistency`,
the `count` field equals the length of the `indices` list, the indices are
strictly ascending, and consistency entries additionally have `count` equal
to the length of the `rows` list. -/
theorem C10_failure_entry_invariants :
    (∀ df : DataFrame,
      (detect_duplicates df).count = (detect_duplicates df).indices.length
      ∧ List.Pairwise (· < ·) (detect_duplicates df).indices)
    ∧ (∀ (df : DataFrame) (rules : List (String × Pattern)) (col : String)
        (e : InvalidEntry),
        lookupInvalid (detect_invalid_inputs df rules) col = some e →
        e.count = e.indices.length ∧ List.Pairwise (· < ·) e.indices)
    ∧ (∀ (df : DataFrame) (rules : List (String × Pred)) (name : String)
        (c : ℕ) (idxs : List ℕ) (rs : List Row),
        lookupRule (check_consistency df rules) name = some (.failure c idxs rs) →
        c = idxs.length ∧ List.Pairwise (· < ·) idxs ∧ c = rs.length) := by
  refine ⟨?_, ?_, ?_⟩
  · intro df
    by_cases h : 0 < (duplicatedMask df).count true
    · simp only [detect_duplicates, if_pos h]
      exact ⟨(length_truePositions _ _).symm, pairwise_truePositions _ _⟩
    · have h0 : (duplicatedMask df).count true = 0 := by omega
      simp only [detect_duplicates, if_neg h]
      exact ⟨by rw [h0]; rfl, List.Pairwise.nil⟩
  · intro df rules col e hlook
    rw [detect_invalid_inputs] at hlook
    by_cases he : (rules.filterMap (fun r =>
        ((df.lookup r.1).bind (fun cells => colInvalid r.2 cells)).map
          (fun x => (r.1, x)))).isEmpty
    · rw [if_pos he, lookupInvalid] at hlook
      cases hlook
    · rw [if_neg he, lookupInvalid] at hlook
      have hmem := mem_of_lookup_eq_some _ _ _ hlook
      rcases List.mem_filterMap.mp hmem with ⟨r, _, hbody⟩
      rcases Option.map_eq_some'.mp hbody with ⟨e', hbind, hpair⟩
      have he' : e' = e := congrArg Prod.snd hpair
      subst he'
      rcases Option.bind_eq_some.mp hbind with ⟨cells, _, hcol⟩
      rw [colInvalid] at hcol
      by_cases hany : (cells.map (fun c => !(strMatch r.2 (cellToStr c)))).any
          (fun b => b)
      · rw [if_pos hany] at hcol
        injection hcol with hcol
        subst hcol
        exact ⟨(length_truePositions _ _).symm, pairwise_truePositions _ _⟩
      · rw [if_neg hany] at hcol
        cases hcol
  · intro df rules name c idxs rs hlook
    rw [check_consistency] at hlook
    by_cases he : (rules.filterMap (fun r =>
        (checkOneRule df r.1 r.2).map (fun x => (r.1, x)))).isEmpty
    · rw [if_pos he, lookupRule] at hlook
      cases hlook
    · rw [if_neg he, lookupRule] at hlook
      have hmem := mem_of_lookup_eq_some _ _ _ hlook
      rcases List.mem_filterMap.mp hmem with ⟨r, _, hbody⟩
      rcases Option.map_eq_some'.mp hbody with ⟨x, hone, hpair⟩
      have hx : x = RuleResult.failure c idxs rs := congrArg Prod.snd hpair
      subst hx
      rw [checkOneRule] at hone
      cases hev : evalRule r.2 (rowsOf df) with
      | error err =>
        rw [hev] at hone
        injection hone with hone
        cases hone
      | ok bs =>
        rw [hev] at hone
        simp only [normalEntry] at hone
        by_cases hany : (bs.map (fun b => !b)).any (fun b => b)
        · rw [if_pos hany] at hone
          injection hone with hone
          injection hone with h1 h2 h3
          subst h1
          subst h2
          subst h3
          refine ⟨(length_truePositions _ _).symm, pairwise_truePositions _ _, ?_⟩
          rw [List.length_map,
            length_selectMask (rowsOf df) (bs.map (fun b => !b))
              (by rw [List.length_map, evalRule_ok_length r.2 (rowsOf df) bs hev])]
        · rw [if_neg hany] at hone
          cases hone

/-- C10 (witness): the invariants applied to the three detectors on
concrete data: the duplicate scenario dataset, a flagged pattern column,
and the failing "Valid Age" consistency entry. -/
theorem C10_failure_entry_invariants_witness :
    ((detect_duplicates dupScenarioDf).count =
        (detect_duplicates dupScenarioDf).indices.length
      ∧ List.Pairwise (· < ·) (detect_duplicates dupScenarioDf).indices)
    ∧ ({ count := 1, indices := [1], values := [Cell.str "zz"] } : InvalidEntry).count =
        ({ count := 1, indices := [1], values := [Cell.str "zz"] } : InvalidEntry).indices.length
    ∧ (2 : ℕ) = [1, 2].length ∧ List.Pairwise (· < ·) [1, 2]
    ∧ (2 : ℕ) = [[("Age", Cell.int 150)], [("Age", Cell.str "x")]].length := by
  refine ⟨C10_failure_entry_invariants.1 dupScenarioDf, ?_, ?_⟩
  · exact (C10_failure_entry_invariants.2.1 patternWitnessDf patternWitnessRules "c"
      { count := 1, indices := [1], values := [Cell.str "zz"] } (by decide)).1
  · have h3 := C10_failure_entry_invariants.2.2 ageScenarioDf default_consistency_rules
      "Valid Age" 2 [1, 2] [[("Age", Cell.int 150)], [("Age", Cell.str "x")]] (by decide)
    exact ⟨h3.1, h3.2.1, h3.2.2⟩

end Plankton
